import Mathlib

/-!
Verification of the localization maintenance scripts
(`scripts/check_localization_completeness.py` and
`scripts/generate_missing_translations.py`).

The Python code is shallowly embedded:

* `pyReplace` models Python's `str.replace` (replace every non-overlapping
  occurrence, scanning left to right).
* `tryMatch` / `scanAux` model `re.finditer` with the fixed pattern
  `"([^"]+)"\s*=\s*"([^"]*(?:\\.[^"]*)*)"\s*;` used by `parse_strings_file`,
  including the backtracking behaviour of the greedy value group.
* Python dictionaries are modelled as insertion-ordered association lists
  (`dictInsert` overwrites the value of an existing key in place).
* The filesystem is a pair of association lists mapping component-wise paths
  to file contents and directory listings; paths are lists of components.
-/

namespace LocCheck

/-! ## Python `str.replace` -/

/-- One step of Python `str.replace`.  The `Nat` argument counts characters
still to be skipped after an occurrence of the pattern was replaced. -/
def pyReplaceGo (pat rep : List Char) : Nat → List Char → List Char
  | _, [] => []
  | Nat.succ n, _ :: rest => pyReplaceGo pat rep n rest
  | 0, c :: rest =>
    if pat.isPrefixOf (c :: rest) then
      rep ++ pyReplaceGo pat rep (pat.length - 1) rest
    else
      c :: pyReplaceGo pat rep 0 rest

/-- Python `s.replace(pat, rep)` for a non-empty pattern: replace every
non-overlapping occurrence of `pat`, scanning left to right.  (The scripts
never call `replace` with an empty pattern, so that case just returns `s`.) -/
def pyReplace (s pat rep : List Char) : List Char :=
  if pat.isEmpty then s else pyReplaceGo pat rep 0 s

/-- Python `s.replace(pat, rep)` on `String`s. -/
def pyReplaceStr (s pat rep : String) : String :=
  String.mk (pyReplace s.data pat.data rep.data)

/-- The value unescaping performed by `parse_strings_file`:
`value.replace('\\"', '"').replace('\\n', '\n').replace('\\\\', '\\')`. -/
def unescape_value (v : String) : String :=
  pyReplaceStr (pyReplaceStr (pyReplaceStr v "\\\"" "\"") "\\n" "\n") "\\\\" "\\"

/-- `escape_string` from `generate_missing_translations.py`:
`value.replace('\\', '\\\\').replace('"', '\\"').replace('\n', '\\n')`. -/
def escape_string (v : String) : String :=
  pyReplaceStr (pyReplaceStr (pyReplaceStr v "\\" "\\\\") "\"" "\\\"") "\n" "\\n"

/-! ## The `.strings` regular expression

`parse_strings_file` applies `re.finditer` with the pattern
`"([^"]+)"\s*=\s*"([^"]*(?:\\.[^"]*)*)"\s*;` to the whole file content.
The key group `[^"]+` and the whitespace runs match deterministically
(backtracking into them can never succeed, because the character following a
shortened run still cannot match the required literal).  The value group
genuinely backtracks: the engine first tries to close the value at the end of
the maximal quote-free run, and on failure retries at each `\\.` escape inside
the run, from the rightmost to the leftmost. -/

/-- A raw regex match: group 1 (the key) and group 2 (the value before
unescaping). -/
structure RawMatch where
  key : List Char
  value : List Char
  deriving DecidableEq, Repr

/-- Python's `\s` on the ASCII range (the files under test are ASCII). -/
def isPySpace (c : Char) : Bool :=
  c == ' ' || c == '\t' || c == '\n' || c == '\r' || c == '\x0b' || c == '\x0c'

/-- Length of the maximal run of non-quote characters starting at index `i`. -/
def nonQuoteRun (s : List Char) (i : Nat) : Nat :=
  ((s.drop i).takeWhile (fun c => c != '"')).length

/-- Length of the maximal run of whitespace characters starting at index `i`. -/
def spaceRun (s : List Char) (i : Nat) : Nat :=
  ((s.drop i).takeWhile isPySpace).length

/-- Match the `\s*;` tail of the pattern starting at index `i`; returns the
index just past the `;` on success. -/
def tryTail (s : List Char) (i : Nat) : Option Nat :=
  let e := i + spaceRun s i
  if s[e]? = some ';' then some (e + 1) else none

/-- Can the `\\.` alternative of the value group consume positions `k`, `k+1`?
It needs a backslash at `k` and any character other than a newline at `k+1`. -/
def bsEscOk (s : List Char) (k : Nat) : Bool :=
  s[k]? == some '\\' &&
    (match s[(k+1)]? with
     | some c => c != '\n'
     | none => false)

/-- Backtracking search for the end of the value group
`[^"]*(?:\\.[^"]*)*` followed by `" \s* ;`, starting at index `v`.
Returns `(closing-quote index, index just past the ';')`.

The fuel argument bounds the nesting depth only; every nested call advances
the start index by at least two, so `s.length + 2` fuel is never exhausted. -/
def tryValueAux (s : List Char) : Nat → Nat → Option (Nat × Nat)
  | 0, _ => none
  | Nat.succ fuel, v =>
    let j := v + nonQuoteRun s v
    let first : Option (Nat × Nat) :=
      if s[j]? = some '"' then
        match tryTail s (j + 1) with
        | some e => some (j, e)
        | none => none
      else none
    match first with
    | some r => some r
    | none =>
      (List.range' v (j - v)).reverse.findSome? (fun k =>
        if bsEscOk s k then tryValueAux s fuel (k + 2) else none)

/-- Attempt to match the whole pattern at index `p`.  On success returns the
match (key and raw value) and the index just past the match. -/
def tryMatch (s : List Char) (p : Nat) : Option (RawMatch × Nat) :=
  if s[p]? = some '"' then
    let key := (s.drop (p + 1)).takeWhile (fun c => c != '"')
    if key.length = 0 then none
    else
      let j := p + 1 + key.length
      if s[j]? = some '"' then
        let j2 := j + 1 + spaceRun s (j + 1)
        if s[j2]? = some '=' then
          let j3 := j2 + 1 + spaceRun s (j2 + 1)
          if s[j3]? = some '"' then
            match tryValueAux s (s.length + 2) (j3 + 1) with
            | some (cq, e) => some (⟨key, (s.drop (j3 + 1)).take (cq - (j3 + 1))⟩, e)
            | none => none
          else none
        else none
      else none
  else none

/-- The scanning loop of `re.finditer`: try the pattern at every index,
continuing after the end of each match.  The fuel starts at `s.length + 1`;
every step advances the index by at least one, so it is never exhausted. -/
def scanAux (s : List Char) : Nat → Nat → List RawMatch
  | 0, _ => []
  | Nat.succ fuel, p =>
    match s[p]? with
    | none => []
    | some _ =>
      match tryMatch s p with
      | some (m, e) => m :: scanAux s fuel e
      | none => scanAux s fuel (p + 1)

/-- All matches of the `.strings` pattern in `s`, in order. -/
def rawMatches (s : List Char) : List RawMatch :=
  scanAux s (s.length + 1) 0

/-! ## Python dictionaries -/

/-- Python dict assignment `d[k] = v`: overwrite in place if the key is
present, otherwise append. -/
def dictInsert (d : List (String × String)) (k v : String) : List (String × String) :=
  match d with
  | [] => [(k, v)]
  | (k', v') :: rest => if k' = k then (k, v) :: rest else (k', v') :: dictInsert rest k v

/-- Build a dict from a list of key/value pairs, inserting left to right. -/
def buildDict (ms : List (String × String)) : List (String × String) :=
  ms.foldl (fun d kv => dictInsert d kv.1 kv.2) []

/-- Python dict lookup `d.get(k)`. -/
def dictLookup (d : List (String × String)) (k : String) : Option String :=
  match d with
  | [] => none
  | (k', v) :: rest => if k' = k then some v else dictLookup rest k

/-- The loop body of `parse_strings_file`: for each regex match, unescape
the value and assign `strings[key] = value`. -/
def parseChars (s : List Char) : List (String × String) :=
  buildDict ((rawMatches s).map (fun m => (String.mk m.key, unescape_value (String.mk m.value))))

/-- `parse_strings_file` applied to file content that was read successfully. -/
def parseContent (content : String) : List (String × String) :=
  parseChars content.data

/-! ## Filesystem model

Paths are lists of components (the scripts only ever join fixed components
with `/`); the filesystem is an association list from file paths to contents
plus an association list from directory paths to their entries
(`(name, is_dir)` pairs, as produced by `Path.iterdir`). -/

/-- A directory listing entry: name and whether it is a directory. -/
structure FS where
  files : List (List String × String)
  dirs : List (List String × List (String × Bool))
  deriving DecidableEq

/-- Association-list lookup on paths. -/
def lookupPath {α : Type} (l : List (List String × α)) (p : List String) : Option α :=
  match l with
  | [] => none
  | (q, x) :: rest => if q = p then some x else lookupPath rest p

/-- Overwrite-or-append insertion for the file table (writing a file). -/
def fileInsert (l : List (List String × String)) (p : List String) (c : String) :
    List (List String × String) :=
  match l with
  | [] => [(p, c)]
  | (q, x) :: rest => if q = p then (p, c) :: rest else (q, x) :: fileInsert rest p c

/-- `Path.mkdir(parents=True, exist_ok=True)`: record the directory if absent. -/
def dirInsert (l : List (List String × List (String × Bool)))
    (p : List String) : List (List String × List (String × Bool)) :=
  match lookupPath l p with
  | some _ => l
  | none => (p, []) :: l

/-- `parse_strings_file` of `check_localization_completeness.py`: a missing
file yields an empty mapping; otherwise the content is parsed. -/
def parse_strings_file (fs : FS) (p : List String) : List (String × String) :=
  match lookupPath fs.files p with
  | none => []
  | some content => parseContent content

/-- The key set of a parsed mapping (`set(strings.keys())`). -/
def stringsKeys (d : List (String × String)) : Finset String :=
  (d.map Prod.fst).toFinset

/-! ## The completeness checker -/

/-- `find_missing_keys`: `return base_keys - lang_keys`. -/
def find_missing_keys (base_keys lang_keys : Finset String) : Finset String :=
  base_keys \ lang_keys

/-- The fixed language-code to display-name table of the script. -/
def lang_names : List (String × String) :=
  [("en", "English"), ("es", "Spanish"), ("fr", "French"), ("de", "German"),
   ("ja", "Japanese"), ("ko", "Korean"), ("zh-Hans", "Simplified Chinese"),
   ("zh-Hant", "Traditional Chinese"), ("pl", "Polish"), ("pt", "Portuguese"),
   ("it", "Italian"), ("ru", "Russian"), ("ar", "Arabic"), ("hi", "Hindi"),
   ("de-CH", "Swiss German"), ("fr-CA", "Canadian French"),
   ("es-MX", "Mexican Spanish")]

/-- `d.get(k, fallback)` on an association list. -/
def lookupD (l : List (String × String)) (k d : String) : String :=
  match l with
  | [] => d
  | (k', v) :: rest => if k' = k then v else lookupD rest k d

/-- `get_language_name`: table lookup with the raw code as fallback. -/
def get_language_name (c : String) : String := lookupD lang_names c c

/-- Python `s.endswith(suffix)`. -/
def endsWithStr (s suffix : String) : Bool := suffix.data.isSuffixOf s.data

/-- `discover_language_directories`: scan the base directory for `*.lproj`
subdirectories, derive the code with `name.replace('.lproj', '')`, skip the
base language, and attach display names. -/
def discover_language_directories (fs : FS) (base_dir : List String)
    (base_lang_code : String) : List (String × String) :=
  match lookupPath fs.dirs base_dir with
  | none => []
  | some entries =>
    entries.foldl (fun langs e =>
      if e.2 && endsWithStr e.1 ".lproj" then
        let lang_code := pyReplaceStr e.1 ".lproj" ""
        if lang_code ≠ base_lang_code then
          dictInsert langs lang_code (lookupD lang_names lang_code lang_code)
        else langs
      else langs) []

/-- `find_base_language_file`: try `base_dir/{code}.lproj/{filename}`, then
`base_dir/{filename}`. -/
def find_base_language_file (fs : FS) (base_dir : List String)
    (code filename : String) : Option (List String) :=
  let f := base_dir ++ [code ++ ".lproj", filename]
  if lookupPath fs.files f ≠ none then some f
  else
    let alt := base_dir ++ [filename]
    if lookupPath fs.files alt ≠ none then some alt else none

/-- `find_language_file`: `base_dir/{code}.lproj/{filename}` if it exists. -/
def find_language_file (fs : FS) (base_dir : List String)
    (code filename : String) : Option (List String) :=
  let f := base_dir ++ [code ++ ".lproj", filename]
  if lookupPath fs.files f ≠ none then some f else none

/-! ## Backups -/

/-- Index of the last `'.'` in a file name, as in Python `name.rfind('.')`. -/
def rfindDot (name : List Char) : Option Nat :=
  (List.range name.length).reverse.find? (fun i => decide (name[i]? = some '.'))

/-- `pathlib.PurePath.suffix`: the extension of the final component,
empty unless the last dot is at an index `i` with `0 < i < len - 1`. -/
def pySuffix (name : String) : String :=
  match rfindDot name.data with
  | some i =>
    if 0 < i ∧ i < name.data.length - 1 then String.mk (name.data.drop i) else ""
  | none => ""

/-- `pathlib.PurePath.stem`: the final component without its suffix. -/
def pyStem (name : String) : String :=
  match rfindDot name.data with
  | some i =>
    if 0 < i ∧ i < name.data.length - 1 then String.mk (name.data.take i) else name
  | none => name

/-- The backup file name built by `create_backup`:
`{stem}_{lang_code}_{timestamp}{suffix}` when a language code is given,
otherwise `{stem}_{parent-dir-name minus '.lproj'}_{timestamp}{suffix}`. -/
def backup_filename (file_path : List String) (lang_code : Option String)
    (ts : String) : String :=
  let nm := file_path.getLastD ""
  match lang_code with
  | some code => pyStem nm ++ "_" ++ code ++ "_" ++ ts ++ pySuffix nm
  | none =>
    let parent_name := pyReplaceStr (file_path.dropLast.getLastD "") ".lproj" ""
    pyStem nm ++ "_" ++ parent_name ++ "_" ++ ts ++ pySuffix nm

/-- `create_backup`: if the file exists, make the backup directory, copy the
file to a timestamped name there and return the backup path; any copy failure
(modelled by `copyFail`) is caught, a warning is emitted on stderr (second
component) and `None` is returned.  `ts` stands for
`datetime.now().strftime('%Y%m%d_%H%M%S')`. -/
def create_backup (fs : FS) (file_path backup_dir : List String)
    (lang_code : Option String) (ts : String) (copyFail : Bool) :
    FS × List String × Option (List String) :=
  match lookupPath fs.files file_path with
  | none => (fs, [], none)
  | some content =>
    let fs1 : FS := { fs with dirs := dirInsert fs.dirs backup_dir }
    let bpath := backup_dir ++ [backup_filename file_path lang_code ts]
    if copyFail then
      (fs1, ["Warning: Failed to backup file"], none)
    else
      ({ fs1 with files := fileInsert fs1.files bpath content }, [], some bpath)

/-- `backup_localization_files`: back up the base file (if it exists) and then
each language file in turn; failed copies are skipped and the loop continues.
Returns the updated filesystem and the list of successful backup paths. -/
def backup_localization_files (fs : FS) (base_file : List String)
    (language_files : List (List String × String)) (base_dir : List String)
    (base_lang_code : String) (ts : String) (copyFail : List String → Bool) :
    FS × List (List String) :=
  let backup_dir := base_dir ++ [".localization_backups"]
  let st0 : FS × List (List String) :=
    if lookupPath fs.files base_file ≠ none then
      match create_backup fs base_file backup_dir (some base_lang_code) ts
          (copyFail base_file) with
      | (fs', _, some bp) => (fs', [bp])
      | (fs', _, none) => (fs', [])
    else (fs, [])
  language_files.foldl (fun st fc =>
    if lookupPath st.1.files fc.1 ≠ none then
      match create_backup st.1 fc.1 backup_dir (some fc.2) ts (copyFail fc.1) with
      | (fs', _, some bp) => (fs', st.2 ++ [bp])
      | (fs', _, none) => (fs', st.2)
    else st) st0

/-! ## `main` -/

/-- The command-line arguments of `main` after `argparse` (the `--quiet`,
`--report` and `--no-report` options only affect printing and the report
file, not the computed sets or the exit code, and are omitted). -/
structure Args where
  base_file : Option (List String)
  base_dir : Option (List String)
  base_lang : String
  filename : String
  languages : Option (List String)
  backup : Bool

/-- Dict-comprehension key list: first occurrence of each element, in order
(the comprehension `{lang: ... for lang in args.languages}` deduplicates). -/
def pyDedupAux (seen : List String) : List String → List String
  | [] => []
  | x :: rest =>
    if seen.contains x then pyDedupAux seen rest
    else x :: pyDedupAux (x :: seen) rest

/-- Deduplicate preserving first occurrences. -/
def pyDedup (l : List String) : List String := pyDedupAux [] l

/-- The base-file resolution of `main`: returns
`(base_dir, base_lang_code, base_file)` or `none` on a usage error.
With `--base-file` the directory is `base_file.parent.parent` and the code is
`base_file.parent.name.replace('.lproj', '')`; otherwise
`find_base_language_file` is used on `--base-dir` or the default directory. -/
def resolveBase (fs : FS) (args : Args) (defaultDir : List String) :
    Option (List String × String × List String) :=
  match args.base_file with
  | some bf =>
    if lookupPath fs.files bf ≠ none then
      some (bf.dropLast.dropLast,
            pyReplaceStr (bf.dropLast.getLastD "") ".lproj" "", bf)
    else none
  | none =>
    let bd := args.base_dir.getD defaultDir
    match find_base_language_file fs bd args.base_lang args.filename with
    | some f => some (bd, args.base_lang, f)
    | none => none

/-- The languages `main` will check: `--languages` (deduplicated by the dict
comprehension) or the auto-discovered `*.lproj` directories. -/
def checkedLanguages (fs : FS) (args : Args) (base_dir : List String)
    (base_lang : String) : List String :=
  match args.languages with
  | some ls => pyDedup ls
  | none => (discover_language_directories fs base_dir base_lang).map Prod.fst

/-- The body of the per-language loop of `main`: a missing file counts as all
base keys missing, otherwise `find_missing_keys` on the parsed key sets. -/
def checkLang (fs : FS) (base_dir : List String) (filename : String)
    (base_keys : Finset String) (code : String) : Finset String :=
  match find_language_file fs base_dir code filename with
  | none => base_keys
  | some f => find_missing_keys base_keys (stringsKeys (parse_strings_file fs f))

/-- The `missing_by_lang` mapping accumulated by `main`'s loop. -/
def missing_by_lang (fs : FS) (base_dir : List String) (filename : String)
    (base_keys : Finset String) (langs : List String) :
    List (String × Finset String) :=
  langs.map (fun c => (c, checkLang fs base_dir filename base_keys c))

/-- The `all_missing` union accumulated by `main`'s loop. -/
def all_missing (fs : FS) (base_dir : List String) (filename : String)
    (base_keys : Finset String) (langs : List String) : Finset String :=
  langs.foldl (fun acc c => acc ∪ checkLang fs base_dir filename base_keys c) ∅

/-- The backup block of `main`: collect the existing language files and call
`backup_localization_files`. -/
def backupPhase (fs : FS) (base_dir base_file : List String)
    (base_lang filename : String) (langs : List String) (ts : String)
    (copyFail : List String → Bool) : FS :=
  let language_files := langs.filterMap (fun c =>
    (find_language_file fs base_dir c filename).map (fun f => (f, c)))
  (backup_localization_files fs base_file language_files base_dir base_lang ts
    copyFail).1

/-- `main` of `check_localization_completeness.py`, returning the process
exit code.  `defaultDir` stands for the script-relative default
`Framework/Resources`; `ts` and `copyFail` model the backup timestamp and
copy failures. -/
def checkMain (fs : FS) (args : Args) (defaultDir : List String) (ts : String)
    (copyFail : List String → Bool) : Nat :=
  match resolveBase fs args defaultDir with
  | none => 1
  | some (base_dir, _base_lang, base_file) =>
    let base_keys := stringsKeys (parse_strings_file fs base_file)
    if base_keys = ∅ then 1
    else
      let langs := checkedLanguages fs args base_dir _base_lang
      if langs = [] then 1
      else
        let fs1 :=
          if args.backup then
            backupPhase fs base_dir base_file _base_lang args.filename langs ts
              copyFail
          else fs
        if all_missing fs1 base_dir args.filename base_keys langs = ∅ then 0
        else 1

/-! ## Claim-side definitions

These definitions follow the wording of the specification, for comparison
with the definitions above, which are translated from the source. -/

/-- Well-formedness of escapes, following the spec's words: the value is a
sequence of recognized escapes `\"`, `\n`, `\\` and plain characters (a bare
`"` or a backslash starting an unrecognized escape is malformed). -/
def wellFormedEscapes : List Char → Bool
  | [] => true
  | [c] => c != '\\' && c != '"'
  | c :: d :: rest =>
    if c = '\\' then (d = '"' ∨ d = 'n' ∨ d = '\\') && wellFormedEscapes rest
    else (c != '"') && wellFormedEscapes (d :: rest)

/-- The amended round-trip domain: sequences of the escapes `\"` and `\n` and
plain characters other than backslash, double quote and newline (the escaped
backslash `\\` is excluded, see the counterexample). -/
def roundtripSafe : List Char → Bool
  | [] => true
  | [c] => c != '\\' && c != '"' && c != '\n'
  | c :: d :: rest =>
    if c = '\\' then (d = '"' ∨ d = 'n') && roundtripSafe rest
    else (c != '"' && c != '\n') && roundtripSafe (d :: rest)

/-- The intended decoding of a `roundtripSafe` value: `\"` becomes `"`,
`\n` becomes a newline, plain characters stay. -/
def decodeSafe : List Char → List Char
  | [] => []
  | [c] => [c]
  | c :: d :: rest =>
    if c = '\\' then
      if d = '"' then '"' :: decodeSafe rest
      else if d = 'n' then '\n' :: decodeSafe rest
      else c :: decodeSafe (d :: rest)
    else c :: decodeSafe (d :: rest)

/-- The value after the first replace of `unescape_value`
(`\"` already decoded, `\n` still encoded), on a `roundtripSafe` value. -/
def decodeQuoteOnly : List Char → List Char
  | [] => []
  | [c] => [c]
  | c :: d :: rest =>
    if c = '\\' then
      if d = '"' then '"' :: decodeQuoteOnly rest
      else if d = 'n' then '\\' :: 'n' :: decodeQuoteOnly rest
      else c :: decodeQuoteOnly (d :: rest)
    else c :: decodeQuoteOnly (d :: rest)

/-- The value after the first two replaces of `escape_string` applied to a
decoded `roundtripSafe` value: quotes re-escaped, newlines not yet. -/
def encodeQuoteOnly : List Char → List Char
  | [] => []
  | [c] => [c]
  | c :: d :: rest =>
    if c = '\\' then
      if d = '"' then '\\' :: '"' :: encodeQuoteOnly rest
      else if d = 'n' then '\n' :: encodeQuoteOnly rest
      else c :: encodeQuoteOnly (d :: rest)
    else c :: encodeQuoteOnly (d :: rest)

/-- Discovery following the spec's words: a subdirectory named
`<code>.lproj` contributes the key `<code>` (the name with the final
`.lproj` stripped), excluding the base language, with the same display-name
table.  Compare `discover_language_directories`, which instead removes every
occurrence of `.lproj` from the name. -/
def discover_spec (fs : FS) (base_dir : List String)
    (base_lang_code : String) : List (String × String) :=
  match lookupPath fs.dirs base_dir with
  | none => []
  | some entries =>
    entries.foldl (fun langs e =>
      if e.2 && endsWithStr e.1 ".lproj" then
        let code := String.mk (e.1.data.take (e.1.data.length - 6))
        if code ≠ base_lang_code then
          dictInsert langs code (lookupD lang_names code code)
        else langs
      else langs) []

/-! ## Dictionary lemmas -/

theorem dictLookup_dictInsert (d : List (String × String)) (a b k : String) :
    dictLookup (dictInsert d a b) k = if a = k then some b else dictLookup d k := by
  induction d with
  | nil => simp [dictInsert, dictLookup]
  | cons hd tl ih =>
    obtain ⟨k', v'⟩ := hd
    by_cases hk : k' = a
    · subst hk
      simp only [dictInsert, if_pos rfl, dictLookup]
      by_cases h2 : k' = k
      · simp [h2]
      · simp [h2]
    · simp only [dictInsert, if_neg hk, dictLookup, ih]
      by_cases h2 : k' = k
      · subst h2
        have hak : ¬a = k' := fun e => hk e.symm
        simp [hak]
      · simp [h2]

theorem buildDict_append (l : List (String × String)) (kv : String × String) :
    buildDict (l ++ [kv]) = dictInsert (buildDict l) kv.1 kv.2 := by
  simp [buildDict, List.foldl_append]

theorem dictLookup_buildDict (l : List (String × String)) (k : String) :
    dictLookup (buildDict l) k =
      (l.filter (fun kv => kv.1 = k)).getLast?.map Prod.snd := by
  induction l using List.reverseRecOn with
  | nil => simp [buildDict, dictLookup]
  | append_singleton l kv ih =>
    rw [buildDict_append, dictLookup_dictInsert, List.filter_append]
    by_cases hk : kv.1 = k
    · simp [hk, List.getLast?_concat]
    · simp [hk, ih]

theorem mem_dictInsert (d : List (String × String)) (a b : String)
    (kv : String × String) (h : kv ∈ dictInsert d a b) :
    kv = (a, b) ∨ kv ∈ d := by
  induction d with
  | nil => simpa [dictInsert] using h
  | cons hd tl ih =>
    obtain ⟨k', v'⟩ := hd
    simp only [dictInsert] at h
    by_cases hk : k' = a
    · rw [if_pos hk] at h
      rcases List.mem_cons.1 h with h1 | h1
      · exact Or.inl h1
      · exact Or.inr (List.mem_cons_of_mem _ h1)
    · rw [if_neg hk] at h
      rcases List.mem_cons.1 h with h1 | h1
      · exact Or.inr (by simp [h1])
      · rcases ih h1 with h2 | h2
        · exact Or.inl h2
        · exact Or.inr (List.mem_cons_of_mem _ h2)

theorem mem_foldl_dictInsert (l : List (String × String)) (kv : String × String) :
    ∀ acc, kv ∈ l.foldl (fun d p => dictInsert d p.1 p.2) acc →
      (∃ v', (kv.1, v') ∈ l) ∨ kv ∈ acc := by
  induction l with
  | nil => intro acc h; exact Or.inr h
  | cons hd tl ih =>
    intro acc h
    simp only [List.foldl_cons] at h
    rcases ih _ h with h2 | h2
    · obtain ⟨v', hv⟩ := h2
      exact Or.inl ⟨v', List.mem_cons_of_mem _ hv⟩
    · rcases mem_dictInsert _ _ _ _ h2 with h3 | h3
      · refine Or.inl ⟨hd.2, ?_⟩
        have hfst : kv.1 = hd.1 := by rw [h3]
        rw [hfst]
        simp
      · exact Or.inr h3

theorem mem_buildDict_key (l : List (String × String)) (kv : String × String)
    (h : kv ∈ buildDict l) : ∃ v', (kv.1, v') ∈ l := by
  rcases mem_foldl_dictInsert l kv [] h with h' | h'
  · exact h'
  · simp at h'

/-! ## Claim theorems: the differencer and the parser's error handling -/

/-- Claim C3: `find_missing_keys` is exactly the set difference
`base_keys - lang_keys` (membership characterization), it is a pure function
of the key sets and therefore order-independent (permuting the list a key set
is built from does not change the result), and on base keys
`{"A.b", "A.c"}` and language keys `{"A.b"}` it returns `{"A.c"}`. -/
theorem c3_find_missing_keys :
    (∀ (b l : Finset String) (k : String),
      k ∈ find_missing_keys b l ↔ k ∈ b ∧ k ∉ l) ∧
    (∀ (xs ys : List String) (l : Finset String), xs.Perm ys →
      find_missing_keys xs.toFinset l = find_missing_keys ys.toFinset l) ∧
    find_missing_keys {"A.b", "A.c"} {"A.b"} = {"A.c"} := by
  refine ⟨fun b l k => Finset.mem_sdiff, fun xs ys l h => ?_, by decide⟩
  rw [List.toFinset_eq_of_perm xs ys h]

/-- Witness for C3 at a concrete permutation. -/
theorem c3_witness :
    find_missing_keys (["A.b", "A.c"].toFinset) {"A.b"} =
      find_missing_keys (["A.c", "A.b"].toFinset) {"A.b"} :=
  c3_find_missing_keys.2.1 ["A.b", "A.c"] ["A.c", "A.b"] {"A.b"} (by decide)

/-- Claim C5: for every path that does not exist in the filesystem,
`parse_strings_file` returns the empty mapping instead of failing. -/
theorem c5_missing_file_empty_map (fs : FS) (p : List String)
    (h : lookupPath fs.files p = none) : parse_strings_file fs p = [] := by
  simp [parse_strings_file, h]

/-- Witness for C5 on a concrete empty filesystem. -/
theorem c5_witness :
    parse_strings_file ⟨[], []⟩ ["Framework", "Resources", "es.lproj",
      "Localizable.strings"] = [] :=
  c5_missing_file_empty_map _ _ rfl

/-- Claim C2: a checked language whose `.strings` file does not exist is
reported with the entire base key set as missing (not a separate error
class), and the loop still produces an entry for every checked language, so
the run continues with the remaining languages. -/
theorem c2_absent_file_all_missing (fs : FS) (base_dir : List String)
    (filename : String) (base_keys : Finset String) (code : String)
    (langs : List String)
    (h : find_language_file fs base_dir code filename = none) :
    checkLang fs base_dir filename base_keys code = base_keys ∧
    (missing_by_lang fs base_dir filename base_keys langs).map Prod.fst =
      langs := by
  constructor
  · simp [checkLang, h]
  · simp only [missing_by_lang, List.map_map]
    induction langs with
    | nil => rfl
    | cons hd tl ih => simpa using ih

/-- Witness for C2 on a filesystem with no language files. -/
theorem c2_witness :
    checkLang ⟨[], []⟩ ["Resources"] "Localizable.strings" {"A.b"} "es" =
      {"A.b"} ∧
    (missing_by_lang ⟨[], []⟩ ["Resources"] "Localizable.strings" {"A.b"}
      ["es", "fr"]).map Prod.fst = ["es", "fr"] :=
  c2_absent_file_all_missing _ _ _ _ _ _ (by decide)

/-- Claim C6: the mapping returned by the parser sends each key to the value
of its last regex match in the file (later occurrences overwrite earlier
ones), and malformed lines are skipped silently: on a file with a duplicate
key and a line missing its semicolon, the result holds only the last value
of the duplicated key and no entry for the malformed line. -/
theorem c6_duplicates_last_wins :
    (∀ (content : String) (k : String),
      dictLookup (parseContent content) k =
        (((rawMatches content.data).map (fun m =>
            (String.mk m.key, unescape_value (String.mk m.value)))).filter
          (fun kv => kv.1 = k)).getLast?.map Prod.snd) ∧
    parseContent "\"a\" = \"1\";\n\"b\" = \"2\"\n\"a\" = \"3\";\n" =
      [("a", "3")] := by
  refine ⟨fun content k => ?_, by decide⟩
  rw [parseContent, parseChars, dictLookup_buildDict]

/-! ## Round-trip lemmas for the escape/unescape chain (claim C4) -/

theorem go_cons_neg (pat rep : List Char) (c : Char) (rest : List Char)
    (h : List.isPrefixOf pat (c :: rest) = false) :
    pyReplaceGo pat rep 0 (c :: rest) = c :: pyReplaceGo pat rep 0 rest := by
  rw [pyReplaceGo, if_neg (by simp [h])]

theorem go_skip (pat rep : List Char) (n : Nat) (c : Char) (rest : List Char) :
    pyReplaceGo pat rep (n + 1) (c :: rest) = pyReplaceGo pat rep n rest := rfl

theorem go1_match (a : Char) (rep rest : List Char) :
    pyReplaceGo [a] rep 0 (a :: rest) = rep ++ pyReplaceGo [a] rep 0 rest := by
  rw [pyReplaceGo, if_pos (by simp [List.isPrefixOf])]
  rfl

theorem go2_match (a b : Char) (rep : List Char) (rest : List Char) :
    pyReplaceGo [a, b] rep 0 (a :: b :: rest) = rep ++ pyReplaceGo [a, b] rep 0 rest := by
  rw [pyReplaceGo, if_pos (by simp [List.isPrefixOf])]
  rw [show ([a, b].length - 1) = 0 + 1 from rfl, go_skip]

theorem go2_neg_of_head (a b : Char) (rep : List Char) (c : Char) (rest : List Char)
    (h : a ≠ c) : pyReplaceGo [a, b] rep 0 (c :: rest) = c :: pyReplaceGo [a, b] rep 0 rest :=
  go_cons_neg _ _ _ _ (by simp [List.isPrefixOf, h])

theorem go2_neg_of_snd (a b : Char) (rep : List Char) (d : Char) (rest : List Char)
    (h : b ≠ d) : pyReplaceGo [a, b] rep 0 (a :: d :: rest) =
      a :: pyReplaceGo [a, b] rep 0 (d :: rest) :=
  go_cons_neg _ _ _ _ (by simp [List.isPrefixOf, h])

theorem go1_neg (a : Char) (rep : List Char) (c : Char) (rest : List Char)
    (h : a ≠ c) : pyReplaceGo [a] rep 0 (c :: rest) = c :: pyReplaceGo [a] rep 0 rest :=
  go_cons_neg _ _ _ _ (by simp [List.isPrefixOf, h])

theorem pyReplaceGo_head_notMem (c : Char) (pt rep s : List Char)
    (h : c ∉ s) : pyReplaceGo (c :: pt) rep 0 s = s := by
  induction s with
  | nil => rfl
  | cons x rest ih =>
    have hx : c ≠ x := fun e => h (by simp [e])
    have h2 : c ∉ rest := fun hm => h (List.mem_cons_of_mem _ hm)
    have hpre : List.isPrefixOf (c :: pt) (x :: rest) = false := by
      simp [List.isPrefixOf, hx]
    rw [go_cons_neg _ _ _ _ hpre, ih h2]

theorem safe_single (c : Char) (h : roundtripSafe [c] = true) :
    c ≠ '\\' ∧ c ≠ '"' ∧ c ≠ '\n' := by
  simpa [roundtripSafe, and_assoc] using h

theorem safe_esc (d : Char) (rest : List Char)
    (h : roundtripSafe ('\\' :: d :: rest) = true) :
    (d = '"' ∨ d = 'n') ∧ roundtripSafe rest = true := by
  rw [roundtripSafe, if_pos rfl] at h
  simpa using h

theorem safe_plain (c d : Char) (rest : List Char) (hc : c ≠ '\\')
    (h : roundtripSafe (c :: d :: rest) = true) :
    c ≠ '"' ∧ c ≠ '\n' ∧ roundtripSafe (d :: rest) = true := by
  rw [roundtripSafe, if_neg hc] at h
  simpa [and_assoc] using h

theorem replace_bsq_safe : ∀ (v : List Char), roundtripSafe v = true →
    pyReplaceGo ['\\', '"'] ['"'] 0 v = decodeQuoteOnly v
  | [], _ => rfl
  | [c], h => by
    rw [go2_neg_of_head _ _ _ _ _ (fun e => (safe_single c h).1 e.symm)]
    rfl
  | c :: d :: rest, h => by
    by_cases hc : c = '\\'
    · subst hc
      obtain ⟨hd, hrest⟩ := safe_esc d rest h
      rcases hd with hd | hd
      · subst hd
        rw [go2_match, replace_bsq_safe rest hrest]
        simp [decodeQuoteOnly]
      · subst hd
        rw [go2_neg_of_snd _ _ _ _ _ (by decide),
          go2_neg_of_head _ _ _ _ _ (by decide), replace_bsq_safe rest hrest]
        simp [decodeQuoteOnly]
    · obtain ⟨hq, hn, hrest⟩ := safe_plain c d rest hc h
      rw [go2_neg_of_head _ _ _ _ _ (fun e => hc e.symm),
        replace_bsq_safe (d :: rest) hrest]
      rw [decodeQuoteOnly, if_neg hc]

theorem replace_bsn_safe : ∀ (v : List Char), roundtripSafe v = true →
    pyReplaceGo ['\\', 'n'] ['\n'] 0 (decodeQuoteOnly v) = decodeSafe v
  | [], _ => rfl
  | [c], h => by
    show pyReplaceGo ['\\', 'n'] ['\n'] 0 [c] = [c]
    rw [go2_neg_of_head _ _ _ _ _ (fun e => (safe_single c h).1 e.symm)]
    rfl
  | c :: d :: rest, h => by
    by_cases hc : c = '\\'
    · subst hc
      obtain ⟨hd, hrest⟩ := safe_esc d rest h
      rcases hd with hd | hd
      · subst hd
        rw [show decodeQuoteOnly ('\\' :: '"' :: rest) = '"' :: decodeQuoteOnly rest
            from by simp [decodeQuoteOnly]]
        rw [go2_neg_of_head _ _ _ _ _ (by decide), replace_bsn_safe rest hrest]
        simp [decodeSafe]
      · subst hd
        rw [show decodeQuoteOnly ('\\' :: 'n' :: rest) = '\\' :: 'n' :: decodeQuoteOnly rest
            from by simp [decodeQuoteOnly]]
        rw [go2_match, replace_bsn_safe rest hrest]
        simp [decodeSafe]
    · obtain ⟨hq, hn, hrest⟩ := safe_plain c d rest hc h
      rw [show decodeQuoteOnly (c :: d :: rest) = c :: decodeQuoteOnly (d :: rest)
          from by rw [decodeQuoteOnly, if_neg hc]]
      rw [go2_neg_of_head _ _ _ _ _ (fun e => hc e.symm),
        replace_bsn_safe (d :: rest) hrest]
      rw [decodeSafe, if_neg hc]

theorem decodeSafe_no_bs : ∀ (v : List Char), roundtripSafe v = true →
    '\\' ∉ decodeSafe v
  | [], _ => by simp [decodeSafe]
  | [c], h => by
    simp [decodeSafe]
    exact fun e => (safe_single c h).1 e.symm
  | c :: d :: rest, h => by
    by_cases hc : c = '\\'
    · subst hc
      obtain ⟨hd, hrest⟩ := safe_esc d rest h
      rcases hd with hd | hd <;> subst hd <;>
        simp [decodeSafe, decodeSafe_no_bs rest hrest]
    · obtain ⟨hq, hn, hrest⟩ := safe_plain c d rest hc h
      rw [decodeSafe, if_neg hc]
      simp [decodeSafe_no_bs (d :: rest) hrest]
      exact fun e => hc e.symm

theorem replace_q_safe : ∀ (v : List Char), roundtripSafe v = true →
    pyReplaceGo ['"'] ['\\', '"'] 0 (decodeSafe v) = encodeQuoteOnly v
  | [], _ => rfl
  | [c], h => by
    show pyReplaceGo ['"'] ['\\', '"'] 0 [c] = [c]
    rw [go1_neg _ _ _ _ (fun e => (safe_single c h).2.1 e.symm)]
    rfl
  | c :: d :: rest, h => by
    by_cases hc : c = '\\'
    · subst hc
      obtain ⟨hd, hrest⟩ := safe_esc d rest h
      rcases hd with hd | hd
      · subst hd
        rw [show decodeSafe ('\\' :: '"' :: rest) = '"' :: decodeSafe rest
            from by simp [decodeSafe]]
        rw [go1_match, replace_q_safe rest hrest]
        simp [encodeQuoteOnly]
      · subst hd
        rw [show decodeSafe ('\\' :: 'n' :: rest) = '\n' :: decodeSafe rest
            from by simp [decodeSafe]]
        rw [go1_neg _ _ _ _ (by decide), replace_q_safe rest hrest]
        simp [encodeQuoteOnly]
    · obtain ⟨hq, hn, hrest⟩ := safe_plain c d rest hc h
      rw [show decodeSafe (c :: d :: rest) = c :: decodeSafe (d :: rest)
          from by rw [decodeSafe, if_neg hc]]
      rw [go1_neg _ _ _ _ (fun e => hq e.symm), replace_q_safe (d :: rest) hrest]
      rw [encodeQuoteOnly, if_neg hc]

theorem replace_nl_safe : ∀ (v : List Char), roundtripSafe v = true →
    pyReplaceGo ['\n'] ['\\', 'n'] 0 (encodeQuoteOnly v) = v
  | [], _ => rfl
  | [c], h => by
    show pyReplaceGo ['\n'] ['\\', 'n'] 0 [c] = [c]
    rw [go1_neg _ _ _ _ (fun e => (safe_single c h).2.2 e.symm)]
    rfl
  | c :: d :: rest, h => by
    by_cases hc : c = '\\'
    · subst hc
      obtain ⟨hd, hrest⟩ := safe_esc d rest h
      rcases hd with hd | hd
      · subst hd
        rw [show encodeQuoteOnly ('\\' :: '"' :: rest) = '\\' :: '"' :: encodeQuoteOnly rest
            from by simp [encodeQuoteOnly]]
        rw [go1_neg _ _ _ _ (by decide), go1_neg _ _ _ _ (by decide),
          replace_nl_safe rest hrest]
      · subst hd
        rw [show encodeQuoteOnly ('\\' :: 'n' :: rest) = '\n' :: encodeQuoteOnly rest
            from by simp [encodeQuoteOnly]]
        rw [go1_match, replace_nl_safe rest hrest]
        rfl
    · obtain ⟨hq, hn, hrest⟩ := safe_plain c d rest hc h
      rw [show encodeQuoteOnly (c :: d :: rest) = c :: encodeQuoteOnly (d :: rest)
          from by rw [encodeQuoteOnly, if_neg hc]]
      rw [go1_neg _ _ _ _ (fun e => hn e.symm), replace_nl_safe (d :: rest) hrest]

theorem pyReplace_cons (s : List Char) (p0 : Char) (pt rep : List Char) :
    pyReplace s (p0 :: pt) rep = pyReplaceGo (p0 :: pt) rep 0 s := by
  rw [pyReplace, if_neg (by simp [List.isEmpty])]

/-- Claim C4 counterexample: the value `\\n` (escaped backslash followed by a
plain `n`) consists only of well-formed escapes and is exactly what the parser
extracts from the well-formed pair `"k" = "\\n";`, yet
`escape_string (unescape_value v) ≠ v` for it: the sequential
`replace('\\n', '\n')` step of the unescaper rewrites the second backslash
together with the `n`, so the round trip yields `\\\n` instead. -/
theorem c4_counterexample :
    wellFormedEscapes "\\\\n".data = true ∧
    (rawMatches "\"k\" = \"\\\\n\";".data).map (fun m => m.value) =
      ["\\\\n".data] ∧
    escape_string (unescape_value "\\\\n") ≠ "\\\\n" := by
  exact ⟨by decide, by decide, by decide⟩

/-- Claim C4 (amended): escaping undoes unescaping — `escape_string`
applied to the unescaped value recovers the raw value exactly — for every
raw value built from the escapes `\"` and `\n` and plain characters other
than backslash, double quote and newline.  (The original claim, quantified
over all values without malformed escapes, fails on values containing the
escaped backslash `\\`; see the counterexample.) -/
theorem c4_roundtrip_amended (v : String) (h : roundtripSafe v.data = true) :
    escape_string (unescape_value v) = v := by
  have hu : (unescape_value v).data = decodeSafe v.data := by
    show pyReplace (pyReplace (pyReplace v.data ['\\', '"'] ['"']) ['\\', 'n'] ['\n'])
        ['\\', '\\'] ['\\'] = decodeSafe v.data
    rw [pyReplace_cons, pyReplace_cons, pyReplace_cons,
      replace_bsq_safe v.data h, replace_bsn_safe v.data h,
      pyReplaceGo_head_notMem _ _ _ _ (decodeSafe_no_bs v.data h)]
  apply String.ext
  show pyReplace (pyReplace (pyReplace (unescape_value v).data ['\\'] ['\\', '\\'])
      ['"'] ['\\', '"']) ['\n'] ['\\', 'n'] = v.data
  rw [hu, pyReplace_cons, pyReplace_cons, pyReplace_cons,
    pyReplaceGo_head_notMem _ _ _ _ (decodeSafe_no_bs v.data h),
    replace_q_safe v.data h, replace_nl_safe v.data h]

/-- Witness for the amended C4 on a concrete value with both escapes. -/
theorem c4_witness :
    roundtripSafe "a\\\"b\\nc".data = true ∧
    escape_string (unescape_value "a\\\"b\\nc") = "a\\\"b\\nc" :=
  ⟨by decide, c4_roundtrip_amended "a\\\"b\\nc" (by decide)⟩

/-! ## Language-directory discovery (claim C7) -/

theorem self_mem_dictInsert (d : List (String × String)) (a b : String) :
    (a, b) ∈ dictInsert d a b := by
  induction d with
  | nil => simp [dictInsert]
  | cons hd tl ih =>
    obtain ⟨k', v'⟩ := hd
    by_cases hk : k' = a
    · simp [dictInsert, hk]
    · simp only [dictInsert, if_neg hk]
      exact List.mem_cons_of_mem _ ih

theorem mem_dictInsert_of_mem_fval (d : List (String × String))
    (f : String → String) (hgood : ∀ p ∈ d, p.2 = f p.1) (a : String)
    (kv : String × String) (hkv : kv ∈ d) : kv ∈ dictInsert d a (f a) := by
  induction d with
  | nil => simp at hkv
  | cons hd tl ih =>
    obtain ⟨k', v'⟩ := hd
    by_cases hk : k' = a
    · subst hk
      simp only [dictInsert, if_pos rfl]
      rcases List.mem_cons.1 hkv with h1 | h1
      · have hv : v' = f k' := hgood (k', v') (by simp)
        rw [h1, hv]
        simp
      · exact List.mem_cons_of_mem _ h1
    · simp only [dictInsert, if_neg hk]
      rcases List.mem_cons.1 hkv with h1 | h1
      · rw [h1]; simp
      · exact List.mem_cons_of_mem _
          (ih (fun p hp => hgood p (List.mem_cons_of_mem _ hp)) h1)

theorem mem_dictInsert_fval (d : List (String × String)) (f : String → String)
    (hgood : ∀ p ∈ d, p.2 = f p.1) (a : String) (kv : String × String) :
    kv ∈ dictInsert d a (f a) ↔ kv = (a, f a) ∨ kv ∈ d := by
  constructor
  · exact mem_dictInsert d a (f a) kv
  · intro h
    rcases h with h | h
    · rw [h]; exact self_mem_dictInsert d a (f a)
    · exact mem_dictInsert_of_mem_fval d f hgood a kv h

/-- Display names as a function of the code. -/
def dispOf (code : String) : String := lookupD lang_names code code

/-- The per-entry step of `discover_language_directories`. -/
def discoverStep (base_lang_code : String) (langs : List (String × String))
    (e : String × Bool) : List (String × String) :=
  if e.2 && endsWithStr e.1 ".lproj" then
    let lang_code := pyReplaceStr e.1 ".lproj" ""
    if lang_code ≠ base_lang_code then
      dictInsert langs lang_code (dispOf lang_code)
    else langs
  else langs

theorem discover_eq_foldl (fs : FS) (bd : List String) (bl : String)
    (entries : List (String × Bool)) (h : lookupPath fs.dirs bd = some entries) :
    discover_language_directories fs bd bl = entries.foldl (discoverStep bl) [] := by
  rw [discover_language_directories, h]
  rfl

/-- A pair `(code, disp)` that an entry of the listing generates. -/
def genBy (bl : String) (entries : List (String × Bool))
    (kv : String × String) : Prop :=
  (∃ nm, (nm, true) ∈ entries ∧ endsWithStr nm ".lproj" = true ∧
    pyReplaceStr nm ".lproj" "" = kv.1) ∧ kv.1 ≠ bl ∧ kv.2 = dispOf kv.1

theorem discoverStep_good (bl : String) (acc : List (String × String))
    (e : String × Bool)
    (hacc : ∀ p ∈ acc, p.2 = dispOf p.1 ∧ p.1 ≠ bl) :
    ∀ p ∈ discoverStep bl acc e, p.2 = dispOf p.1 ∧ p.1 ≠ bl := by
  intro p hp
  rw [discoverStep] at hp
  by_cases hcond : (e.2 && endsWithStr e.1 ".lproj") = true
  · rw [if_pos hcond] at hp
    by_cases hbl : pyReplaceStr e.1 ".lproj" "" ≠ bl
    · rw [if_pos hbl] at hp
      rcases mem_dictInsert _ _ _ _ hp with h1 | h1
      · rw [h1]; exact ⟨rfl, hbl⟩
      · exact hacc p h1
    · rw [if_neg hbl] at hp
      exact hacc p hp
  · rw [if_neg hcond] at hp
    exact hacc p hp

theorem discover_fold_mem (bl : String) (entries : List (String × Bool)) :
    ∀ (acc : List (String × String)),
      (∀ p ∈ acc, p.2 = dispOf p.1 ∧ p.1 ≠ bl) →
      ∀ kv, (kv ∈ entries.foldl (discoverStep bl) acc ↔
        kv ∈ acc ∨ genBy bl entries kv) := by
  induction entries with
  | nil =>
    intro acc hacc kv
    simp [genBy]
  | cons e tl ih =>
    intro acc hacc kv
    rw [List.foldl_cons]
    rw [ih (discoverStep bl acc e) (discoverStep_good bl acc e hacc) kv]
    obtain ⟨nm, b⟩ := e
    constructor
    · intro h
      rcases h with h | h
      · rw [discoverStep] at h
        by_cases hcond : (b && endsWithStr nm ".lproj") = true
        · rw [if_pos hcond] at h
          by_cases hbl : pyReplaceStr nm ".lproj" "" ≠ bl
          · rw [if_pos hbl] at h
            rcases mem_dictInsert _ _ _ _ h with h1 | h1
            · rw [Bool.and_eq_true] at hcond
              refine Or.inr ⟨⟨nm, ?_, ?_, ?_⟩, ?_, ?_⟩
              · have hb : b = true := hcond.1
                rw [← hb]; simp
              · exact hcond.2
              · rw [h1]
              · rw [h1]; exact hbl
              · rw [h1]
            · exact Or.inl h1
          · rw [if_neg hbl] at h
            exact Or.inl h
        · rw [if_neg hcond] at h
          exact Or.inl h
      · obtain ⟨⟨nm', hnm', hend', hcode'⟩, hbl', hdisp'⟩ := h
        exact Or.inr ⟨⟨nm', List.mem_cons_of_mem _ hnm', hend', hcode'⟩, hbl', hdisp'⟩
    · intro h
      rcases h with h | h
      · refine Or.inl ?_
        rw [discoverStep]
        by_cases hcond : (b && endsWithStr nm ".lproj") = true
        · rw [if_pos hcond]
          by_cases hbl : pyReplaceStr nm ".lproj" "" ≠ bl
          · rw [if_pos hbl]
            exact mem_dictInsert_of_mem_fval acc dispOf
              (fun p hp => (hacc p hp).1) _ kv h
          · rw [if_neg hbl]; exact h
        · rw [if_neg hcond]; exact h
      · obtain ⟨⟨nm', hnm', hend', hcode'⟩, hbl', hdisp'⟩ := h
        rcases List.mem_cons.1 hnm' with h1 | h1
        · have hnmeq : nm' = nm ∧ b = true := by
            constructor
            · exact congrArg Prod.fst h1
            · exact (congrArg Prod.snd h1).symm
          obtain ⟨h2, h3⟩ := hnmeq
          subst h2
          refine Or.inl ?_
          rw [discoverStep]
          have hcond : (b && endsWithStr nm' ".lproj") = true := by
            rw [h3, hend']
            rfl
          rw [if_pos hcond, if_pos (hcode' ▸ hbl')]
          have hkv : kv = (pyReplaceStr nm' ".lproj" "",
              dispOf (pyReplaceStr nm' ".lproj" "")) := by
            obtain ⟨k0, v0⟩ := kv
            simp only at hcode' hdisp'
            rw [Prod.mk.injEq]
            exact ⟨hcode'.symm, by rw [hdisp', hcode']⟩
          rw [hkv]
          exact self_mem_dictInsert _ _ _
        · exact Or.inr ⟨⟨nm', h1, hend', hcode'⟩, hbl', hdisp'⟩

/-- Claim C7 counterexample: on a directory listing containing the
subdirectory `de.lproj.lproj` (which is named `<code>.lproj` with code
`de.lproj`), the code computes the language code with
`name.replace('.lproj', '')`, which removes every occurrence, yielding the
key `de` (displayed `German`), not the code `de.lproj` that stripping only
the final suffix would give. -/
theorem c7_counterexample :
    discover_language_directories
        ⟨[], [(["Resources"], [("de.lproj.lproj", true)])]⟩ ["Resources"] "en" =
      [("de", "German")] ∧
    discover_spec ⟨[], [(["Resources"], [("de.lproj.lproj", true)])]⟩
        ["Resources"] "en" = [("de.lproj", "de.lproj")] ∧
    discover_language_directories
        ⟨[], [(["Resources"], [("de.lproj.lproj", true)])]⟩ ["Resources"] "en" ≠
      discover_spec ⟨[], [(["Resources"], [("de.lproj.lproj", true)])]⟩
        ["Resources"] "en" := by
  exact ⟨by decide, by decide, by decide⟩

/-- Claim C7 (amended): `discover_language_directories` returns exactly the
pairs `(code, disp)` such that some subdirectory entry of the base directory
ends in `.lproj` and yields `code` after removing every occurrence of
`.lproj` from its name (for ordinary names `<code>.lproj` this is the plain
code), where `code` differs from the base language code — so the base
language directory is excluded even though it matches the naming
convention — and `disp` is the fixed table's display name with the raw code
as fallback; if the base directory does not exist the result is empty. -/
theorem c7_discover_amended (fs : FS) (bd : List String) (bl : String) :
    (∀ code disp, ((code, disp) ∈ discover_language_directories fs bd bl ↔
      (∃ entries, lookupPath fs.dirs bd = some entries ∧
        ∃ nm, (nm, true) ∈ entries ∧ endsWithStr nm ".lproj" = true ∧
          pyReplaceStr nm ".lproj" "" = code) ∧
      code ≠ bl ∧ disp = dispOf code)) ∧
    (lookupPath fs.dirs bd = none →
      discover_language_directories fs bd bl = []) := by
  constructor
  · intro code disp
    cases hdir : lookupPath fs.dirs bd with
    | none =>
      rw [discover_language_directories, hdir]
      simp
    | some entries =>
      rw [discover_eq_foldl fs bd bl entries hdir]
      rw [discover_fold_mem bl entries [] (by simp) (code, disp)]
      simp only [List.not_mem_nil, false_or, genBy, hdir]
      constructor
      · intro ⟨⟨nm, h1, h2, h3⟩, h4, h5⟩
        exact ⟨⟨entries, rfl, nm, h1, h2, h3⟩, h4, h5⟩
      · intro ⟨⟨entries', he', nm, h1, h2, h3⟩, h4, h5⟩
        have : entries' = entries := by
          have := he'.symm.trans rfl
          exact Option.some.inj this
        subst this
        exact ⟨⟨nm, h1, h2, h3⟩, h4, h5⟩
  · intro h
    rw [discover_language_directories, h]

/-- Witness for the amended C7: an absent base directory yields no languages. -/
theorem c7_witness :
    discover_language_directories ⟨[], []⟩ ["Resources"] "en" = [] :=
  (c7_discover_amended ⟨[], []⟩ ["Resources"] "en").2 rfl

/-! ## Backups (claim C8) -/

theorem lookup_fileInsert (l : List (List String × String)) (p : List String)
    (c : String) (q : List String) :
    lookupPath (fileInsert l p c) q = if q = p then some c else lookupPath l q := by
  induction l with
  | nil =>
    simp only [fileInsert, lookupPath]
    by_cases h : p = q
    · rw [if_pos h, if_pos h.symm]
    · rw [if_neg h, if_neg (fun e : q = p => h e.symm)]
  | cons hd tl ih =>
    obtain ⟨k, x⟩ := hd
    by_cases hk : k = p
    · subst hk
      simp only [fileInsert, if_pos rfl, lookupPath]
      by_cases h : k = q
      · subst h
        rw [if_pos rfl, if_pos rfl]
      · rw [if_neg h, if_neg (fun e : q = k => h e.symm), if_neg h]
    · simp only [fileInsert, if_neg hk, lookupPath, ih]
      by_cases h : k = q
      · subst h
        rw [if_pos rfl, if_neg (fun e : k = p => hk e), if_pos rfl]
      · rw [if_neg h]
        by_cases hqp : q = p
        · rw [if_pos hqp, if_pos hqp]
        · rw [if_neg hqp, if_neg hqp, if_neg h]

theorem create_backup_preserves_exists (fs : FS) (fp bdir : List String)
    (lc : Option String) (ts : String) (cf : Bool) (q : List String)
    (h : lookupPath fs.files q ≠ none) :
    lookupPath (create_backup fs fp bdir lc ts cf).1.files q ≠ none := by
  cases hfp : lookupPath fs.files fp with
  | none => simpa [create_backup, hfp] using h
  | some content =>
    by_cases hcf : cf = true
    · simpa [create_backup, hfp, hcf] using h
    · have hcf' : cf = false := by simpa using hcf
      simp only [create_backup, hfp, hcf', Bool.false_eq_true, if_false,
        lookup_fileInsert]
      by_cases hq : q = bdir ++ [backup_filename fp lc ts]
      · simp [hq]
      · simpa [hq] using h

/-- The per-file step of `backup_localization_files`. -/
def backupStep (backup_dir : List String) (ts : String)
    (copyFail : List String → Bool) (st : FS × List (List String))
    (fc : List String × String) : FS × List (List String) :=
  if lookupPath st.1.files fc.1 ≠ none then
    match create_backup st.1 fc.1 backup_dir (some fc.2) ts (copyFail fc.1) with
    | (fs', _, some bp) => (fs', st.2 ++ [bp])
    | (fs', _, none) => (fs', st.2)
  else st

theorem backup_loc_files_eq (fs : FS) (base_file : List String)
    (lfs : List (List String × String)) (base_dir : List String) (bl ts : String)
    (cf : List String → Bool) :
    backup_localization_files fs base_file lfs base_dir bl ts cf =
      lfs.foldl (backupStep (base_dir ++ [".localization_backups"]) ts cf)
        (if lookupPath fs.files base_file ≠ none then
          match create_backup fs base_file (base_dir ++ [".localization_backups"])
              (some bl) ts (cf base_file) with
          | (fs', _, some bp) => (fs', [bp])
          | (fs', _, none) => (fs', [])
        else (fs, [])) := by
  rw [backup_localization_files]
  rfl

theorem backup_fold_acc_mono (bdir : List String) (ts : String)
    (cf : List String → Bool) :
    ∀ (lfs : List (List String × String)) (st : FS × List (List String))
      (bp : List String), bp ∈ st.2 →
      bp ∈ (lfs.foldl (backupStep bdir ts cf) st).2 := by
  intro lfs
  induction lfs with
  | nil => intro st bp h; exact h
  | cons fc tl ih =>
    intro st bp h
    rw [List.foldl_cons]
    apply ih
    rw [backupStep]
    by_cases hex : lookupPath st.1.files fc.1 ≠ none
    · rw [if_pos hex]
      cases hcb : create_backup st.1 fc.1 bdir (some fc.2) ts (cf fc.1) with
      | mk fs' rest =>
        obtain ⟨w, obp⟩ := rest
        cases obp with
        | none => exact h
        | some bp' => simp only []; exact List.mem_append_left _ h
    · rw [if_neg hex]; exact h

theorem backupStep_preserves_exists (bdir : List String) (ts : String)
    (cf : List String → Bool) (st : FS × List (List String))
    (fc : List String × String) (q : List String)
    (h : lookupPath st.1.files q ≠ none) :
    lookupPath (backupStep bdir ts cf st fc).1.files q ≠ none := by
  rw [backupStep]
  by_cases hex : lookupPath st.1.files fc.1 ≠ none
  · rw [if_pos hex]
    have hpre := create_backup_preserves_exists st.1 fc.1 bdir (some fc.2) ts
      (cf fc.1) q h
    cases hcb : create_backup st.1 fc.1 bdir (some fc.2) ts (cf fc.1) with
    | mk fs' rest =>
      obtain ⟨w, obp⟩ := rest
      rw [hcb] at hpre
      cases obp with
      | none => exact hpre
      | some bp => exact hpre
  · rw [if_neg hex]; exact h

theorem backup_fold_processes (bdir : List String) (ts : String)
    (cf : List String → Bool) :
    ∀ (lfs : List (List String × String)) (st : FS × List (List String))
      (f : List String) (c : String), (f, c) ∈ lfs →
      lookupPath st.1.files f ≠ none → cf f = false →
      ∃ bp, bp ∈ (lfs.foldl (backupStep bdir ts cf) st).2 ∧
        bp.dropLast = bdir := by
  intro lfs
  induction lfs with
  | nil => intro st f c h; simp at h
  | cons fc tl ih =>
    intro st f c hmem hex hcf
    rw [List.foldl_cons]
    rcases List.mem_cons.1 hmem with h1 | h1
    · have hf : fc.1 = f := by rw [← h1]
      have hex' : lookupPath st.1.files fc.1 ≠ none := by rw [hf]; exact hex
      cases hcontent : lookupPath st.1.files fc.1 with
      | none => exact absurd hcontent hex'
      | some content =>
        refine ⟨bdir ++ [backup_filename fc.1 (some fc.2) ts], ?_, by simp⟩
        apply backup_fold_acc_mono
        have hcf2 : cf fc.1 = false := by rw [hf]; exact hcf
        simp only [backupStep, if_pos hex', create_backup, hcontent, hcf2,
          Bool.false_eq_true, if_false]
        exact List.mem_append_right _ (by simp)
    · exact ih (backupStep bdir ts cf st fc) f c h1
        (backupStep_preserves_exists bdir ts cf st fc f hex) hcf

/-- Claim C8: when the backup option runs, each existing file is copied to a
timestamped path inside the backup directory without modifying the original
(the backup holds the original's contents and the original still reads the
same); a failing copy is caught — `create_backup` returns `none` rather than
raising — logged as a warning, and leaves the file table untouched; and
`backup_localization_files` keeps processing: every existing language file
whose copy succeeds gets a backup recorded in the backup directory,
regardless of failures elsewhere in the run. -/
theorem c8_backup (fs : FS) (fp bdir : List String) (lc : Option String)
    (ts : String) (content : String)
    (hex : lookupPath fs.files fp = some content) :
    ((create_backup fs fp bdir lc ts false).2.2 =
        some (bdir ++ [backup_filename fp lc ts]) ∧
      lookupPath (create_backup fs fp bdir lc ts false).1.files
        (bdir ++ [backup_filename fp lc ts]) = some content ∧
      lookupPath (create_backup fs fp bdir lc ts false).1.files fp =
        lookupPath fs.files fp ∧
      (∃ l r, (backup_filename fp lc ts).data = l ++ ts.data ++ r)) ∧
    ((create_backup fs fp bdir lc ts true).2.2 = none ∧
      (create_backup fs fp bdir lc ts true).2.1 ≠ [] ∧
      (create_backup fs fp bdir lc ts true).1.files = fs.files) ∧
    (∀ (base_dir base_file : List String) (lfs : List (List String × String))
      (bl : String) (cf : List String → Bool) (f : List String) (c : String),
      (f, c) ∈ lfs → lookupPath fs.files f ≠ none → cf f = false →
      ∃ bp, bp ∈ (backup_localization_files fs base_file lfs base_dir bl ts
        cf).2 ∧ bp.dropLast = base_dir ++ [".localization_backups"]) := by
  refine ⟨⟨?_, ?_, ?_, ?_⟩, ⟨?_, ?_, ?_⟩, ?_⟩
  · simp [create_backup, hex]
  · simp [create_backup, hex, lookup_fileInsert]
  · simp only [create_backup, hex, Bool.false_eq_true, if_false,
      lookup_fileInsert]
    by_cases hq : fp = bdir ++ [backup_filename fp lc ts]
    · rw [if_pos hq]
    · rw [if_neg hq]
  · cases lc with
    | some code =>
      refine ⟨(pyStem (fp.getLastD "") ++ "_" ++ code ++ "_").data,
        (pySuffix (fp.getLastD "")).data, ?_⟩
      simp [backup_filename, String.data_append, List.append_assoc]
    | none =>
      refine ⟨(pyStem (fp.getLastD "") ++ "_" ++
        pyReplaceStr (fp.dropLast.getLastD "") ".lproj" "" ++ "_").data,
        (pySuffix (fp.getLastD "")).data, ?_⟩
      simp [backup_filename, String.data_append, List.append_assoc]
  · simp [create_backup, hex]
  · simp [create_backup, hex]
  · simp [create_backup, hex]
  · intro base_dir base_file lfs bl cf f c hmem hf hcf
    rw [backup_loc_files_eq]
    apply backup_fold_processes _ ts cf lfs _ f c hmem ?_ hcf
    by_cases hb : lookupPath fs.files base_file ≠ none
    · rw [if_pos hb]
      have hpres := create_backup_preserves_exists fs base_file
        (base_dir ++ [".localization_backups"]) (some bl) ts (cf base_file) f hf
      cases hcb : create_backup fs base_file (base_dir ++ [".localization_backups"])
          (some bl) ts (cf base_file) with
      | mk fs' rest =>
        obtain ⟨w, obp⟩ := rest
        rw [hcb] at hpres
        cases obp with
        | none => exact hpres
        | some bp => exact hpres
    · rw [if_neg hb]; exact hf

/-- Witness for C8 on a one-file filesystem. -/
theorem c8_witness :
    (create_backup ⟨[(["R", "en.lproj", "L.strings"], "x")], []⟩
        ["R", "en.lproj", "L.strings"] ["R", ".localization_backups"]
        (some "en") "20240101_000000" false).2.2 =
      some (["R", ".localization_backups"] ++
        [backup_filename ["R", "en.lproj", "L.strings"] (some "en")
          "20240101_000000"]) :=
  (c8_backup ⟨[(["R", "en.lproj", "L.strings"], "x")], []⟩
    ["R", "en.lproj", "L.strings"] ["R", ".localization_backups"] (some "en")
    "20240101_000000" "x" rfl).1.1

/-! ## Parser key invariants (claim C10) -/

theorem tryMatch_key_props (s : List Char) (p : Nat) (m : RawMatch) (e : Nat)
    (h : tryMatch s p = some (m, e)) :
    m.key ≠ [] ∧ (∀ c ∈ m.key, c ≠ '"') ∧ ∃ l r, s = l ++ m.key ++ r := by
  rw [tryMatch] at h
  by_cases h1 : s[p]? = some '"'
  case neg => rw [if_neg h1] at h; exact absurd h (by simp)
  rw [if_pos h1] at h
  simp only [] at h
  by_cases h2 : ((s.drop (p + 1)).takeWhile (fun c => c != '"')).length = 0
  · rw [if_pos h2] at h; exact absurd h (by simp)
  rw [if_neg h2] at h
  have hkey : m.key = (s.drop (p + 1)).takeWhile (fun c => c != '"') := by
    by_cases h3 : s[p + 1 + ((s.drop (p + 1)).takeWhile (fun c => c != '"')).length]? =
        some '"'
    case neg => rw [if_neg h3] at h; exact absurd h (by simp)
    rw [if_pos h3] at h
    by_cases h4 : s[p + 1 + ((s.drop (p + 1)).takeWhile (fun c => c != '"')).length +
        1 + spaceRun s (p + 1 +
          ((s.drop (p + 1)).takeWhile (fun c => c != '"')).length + 1)]? = some '='
    case neg => rw [if_neg h4] at h; exact absurd h (by simp)
    rw [if_pos h4] at h
    split at h
    · split at h
      · have h5 := (Prod.mk.inj (Option.some.inj h)).1
        rw [← h5]
      · exact absurd h (by simp)
    · exact absurd h (by simp)
  refine ⟨?_, ?_, ?_⟩
  · rw [hkey]
    intro hnil
    rw [hnil] at h2
    simp at h2
  · intro c hc
    rw [hkey] at hc
    have := List.mem_takeWhile_imp hc
    simpa using this
  · refine ⟨s.take (p + 1), (s.drop (p + 1)).dropWhile (fun c => c != '"'), ?_⟩
    rw [hkey]
    conv_lhs => rw [← List.take_append_drop (p + 1) s]
    rw [← List.takeWhile_append_dropWhile (p := fun c => c != '"')
      (l := s.drop (p + 1))]
    simp [List.append_assoc]

theorem scanAux_matches (s : List Char) :
    ∀ (fuel p : Nat) (m : RawMatch), m ∈ scanAux s fuel p →
      ∃ p' e, tryMatch s p' = some (m, e) := by
  intro fuel
  induction fuel with
  | zero => intro p m h; simp [scanAux] at h
  | succ fuel ih =>
    intro p m h
    rw [scanAux] at h
    cases hsp : s[p]? with
    | none => rw [hsp] at h; simp at h
    | some c =>
      rw [hsp] at h
      cases htm : tryMatch s p with
      | none => rw [htm] at h; exact ih _ m h
      | some me =>
        obtain ⟨m', e⟩ := me
        rw [htm] at h
        rcases List.mem_cons.1 h with h1 | h1
        · exact ⟨p, e, by rw [htm, h1]⟩
        · exact ih _ m h1

/-- Claim C10: every key in the mapping returned by the parser is non-empty
and contains no double quote, and keys are stored verbatim — the key is an
exact contiguous substring of the file content (no unescaping is applied to
keys); in particular a file whose key is written `a\nb` keeps the backslash
and the `n` literally in the mapping. -/
theorem c10_key_invariants :
    (∀ (s : List Char) (k v : String), (k, v) ∈ parseChars s →
      k ≠ "" ∧ '"' ∉ k.data ∧ ∃ l r, s = l ++ k.data ++ r) ∧
    parseContent "\"a\\nb\" = \"x\";" = [("a\\nb", "x")] := by
  refine ⟨?_, by decide⟩
  intro s k v h
  obtain ⟨v', hv⟩ := mem_buildDict_key _ _ h
  rw [List.mem_map] at hv
  obtain ⟨m, hm, hf⟩ := hv
  obtain ⟨p', e, htm⟩ := scanAux_matches s _ _ m hm
  obtain ⟨hne, hq, l, r, hdecomp⟩ := tryMatch_key_props s p' m e htm
  have hk : String.mk m.key = k := congrArg Prod.fst hf
  refine ⟨?_, ?_, l, r, ?_⟩
  · intro hke
    apply hne
    have h0 : (String.mk m.key).data = ("" : String).data := by rw [hk, hke]
    exact h0
  · intro hcq
    have hdat : k.data = m.key := by rw [← hk]
    rw [hdat] at hcq
    exact hq '"' hcq rfl
  · have hdat : k.data = m.key := by rw [← hk]
    rw [hdat]
    exact hdecomp

/-- Witness for C10 at a concrete parsed file. -/
theorem c10_witness :
    "k1" ≠ "" ∧ '"' ∉ "k1".data ∧
      ∃ l r, "\"k1\" = \"v\";".data = l ++ "k1".data ++ r :=
  c10_key_invariants.1 "\"k1\" = \"v\";".data "k1" "v" (by decide)

/-! ## Comment blindness of the parser (claim C9) -/

theorem takeWhile_append_stop (p : Char → Bool) (l : List Char) (x : Char)
    (r : List Char) (hl : ∀ c ∈ l, p c = true) (hx : p x = false) :
    (l ++ x :: r).takeWhile p = l := by
  induction l with
  | nil => simp [List.takeWhile_cons, hx]
  | cons a tl ih =>
    rw [List.cons_append, List.takeWhile_cons, hl a (by simp)]
    simp [ih (fun c hc => hl c (List.mem_cons_of_mem _ hc))]

theorem getElem?_boundary (A B : List Char) (c : Char) (r : List Char)
    (hB : B = c :: r) (n : Nat) (hn : n = A.length) : (A ++ B)[n]? = some c := by
  subst hB
  subst hn
  rw [List.getElem?_append_right (le_refl _)]
  simp

theorem drop_boundary (A B : List Char) (n : Nat) (hn : n = A.length) :
    (A ++ B).drop n = B := by
  subst hn
  simp

theorem tryMatch_none_of_not_quote (s : List Char) (p : Nat)
    (h : s[p]? ≠ some '"') : tryMatch s p = none := by
  rw [tryMatch, if_neg h]

theorem scanAux_skip (s : List Char) :
    ∀ (n fuel p : Nat), (∀ i, i < n → ∃ c, s[p + i]? = some c ∧ c ≠ '"') →
      scanAux s (fuel + n) p = scanAux s fuel (p + n) := by
  intro n
  induction n with
  | zero => intro fuel p _; rfl
  | succ n ih =>
    intro fuel p hno
    obtain ⟨c, hc, hcq⟩ := hno 0 (Nat.succ_pos n)
    rw [Nat.add_zero] at hc
    have h1 : fuel + (n + 1) = (fuel + n) + 1 := rfl
    rw [h1, scanAux, hc,
      tryMatch_none_of_not_quote s p (by rw [hc]; simp [hcq])]
    have h2 : p + (n + 1) = (p + 1) + n := by omega
    rw [h2]
    exact ih fuel (p + 1) (fun i hi => by
      have := hno (i + 1) (by omega)
      simpa [show p + (i + 1) = p + 1 + i from by omega] using this)

theorem scanAux_at_end (s : List Char) (fuel p : Nat) (h : s[p]? = none) :
    scanAux s (fuel + 1) p = [] := by
  rw [scanAux, h]

theorem tryValueAux_first (s : List Char) (fuel v j e : Nat)
    (hj : j = v + nonQuoteRun s v) (hq : s[j]? = some '"')
    (ht : tryTail s (j + 1) = some e) :
    tryValueAux s (fuel + 1) v = some (j, e) := by
  rw [tryValueAux]
  simp only [← hj, hq, ht]
  simp

theorem unescape_value_no_bs (v : List Char) (h : '\\' ∉ v) :
    unescape_value (String.mk v) = String.mk v := by
  apply String.ext
  show pyReplace (pyReplace (pyReplace v ['\\', '"'] ['"']) ['\\', 'n'] ['\n'])
    ['\\', '\\'] ['\\'] = v
  have h1 : pyReplace v ['\\', '"'] ['"'] = v := by
    rw [pyReplace_cons, pyReplaceGo_head_notMem _ _ _ _ h]
  have h2 : pyReplace v ['\\', 'n'] ['\n'] = v := by
    rw [pyReplace_cons, pyReplaceGo_head_notMem _ _ _ _ h]
  have h3 : pyReplace v ['\\', '\\'] ['\\'] = v := by
    rw [pyReplace_cons, pyReplaceGo_head_notMem _ _ _ _ h]
  rw [h1, h2, h3]

theorem tryMatch_exact (s : List Char) (p : Nat) (k vv : List Char) (cq e : Nat)
    (h0 : s[p]? = some '"')
    (hkey : (s.drop (p + 1)).takeWhile (fun c => c != '"') = k)
    (hkne : ¬k.length = 0)
    (h1 : s[p + 1 + k.length]? = some '"')
    (hsp1 : spaceRun s (p + 1 + k.length + 1) = 1)
    (h2 : s[p + 1 + k.length + 1 + 1]? = some '=')
    (hsp2 : spaceRun s (p + 1 + k.length + 1 + 1 + 1) = 1)
    (h3 : s[p + 1 + k.length + 1 + 1 + 1 + 1]? = some '"')
    (htv : tryValueAux s (s.length + 2) (p + 1 + k.length + 1 + 1 + 1 + 1 + 1) =
      some (cq, e))
    (hval : (s.drop (p + 1 + k.length + 1 + 1 + 1 + 1 + 1)).take
      (cq - (p + 1 + k.length + 1 + 1 + 1 + 1 + 1)) = vv) :
    tryMatch s p = some (⟨k, vv⟩, e) := by
  rw [tryMatch, if_pos h0]
  simp only [hkey]
  rw [if_neg hkne, if_pos h1, hsp1, if_pos h2, hsp2, if_pos h3, htv]
  simp only [hval]

/-- Claim C9: the parser applies its regular expression to the whole file
content with no comment awareness: a well-formed `"key" = "value";` pair is
matched and contributes its entry to the mapping no matter what surrounds
it — in particular inside a `/* ... */` block comment or after a `//` line
comment — whenever the surrounding text contains no double quote of its own
(and the key and value are plain: no quotes, no backslash in the value). -/
theorem c9_comment_blind (pre k v post : List Char)
    (hpre : '"' ∉ pre) (hpost : '"' ∉ post) (hk : '"' ∉ k) (hkne : k ≠ [])
    (hv : '"' ∉ v) (hvb : '\\' ∉ v) :
    parseChars (pre ++ '"' :: k ++ '"' :: ' ' :: '=' :: ' ' :: '"' :: v ++
      '"' :: ';' :: post) = [(String.mk k, String.mk v)] := by
  set s := pre ++ '"' :: k ++ '"' :: ' ' :: '=' :: ' ' :: '"' :: v ++
    '"' :: ';' :: post with hs
  have hL : s.length = pre.length + k.length + v.length + 8 + post.length := by
    simp [hs]
    omega
  have h0 : s[pre.length]? = some '"' := by
    rw [show s = pre ++ '"' :: (k ++ '"' :: ' ' :: '=' :: ' ' :: '"' ::
      (v ++ '"' :: ';' :: post)) from by simp [hs]]
    exact getElem?_boundary pre _ '"' _ rfl pre.length rfl
  have hdrop1 : s.drop (pre.length + 1) =
      k ++ '"' :: ' ' :: '=' :: ' ' :: '"' :: (v ++ '"' :: ';' :: post) := by
    rw [show s = (pre ++ ['"']) ++
      (k ++ '"' :: ' ' :: '=' :: ' ' :: '"' :: (v ++ '"' :: ';' :: post)) from by
        simp [hs]]
    exact drop_boundary _ _ _ (by simp)
  have hkeymem : ∀ c ∈ k, (c != '"') = true := by
    intro c hc
    simp only [bne_iff_ne, ne_eq]
    exact fun e => hk (e ▸ hc)
  have hkey : (s.drop (pre.length + 1)).takeWhile (fun c => c != '"') = k := by
    rw [hdrop1]
    exact takeWhile_append_stop _ k '"' _ hkeymem (by simp)
  have hklen : ¬k.length = 0 := by
    intro h
    exact hkne (List.length_eq_zero.1 h)
  have h1 : s[pre.length + 1 + k.length]? = some '"' := by
    rw [show s = (pre ++ '"' :: k) ++
      ('"' :: ' ' :: '=' :: ' ' :: '"' :: (v ++ '"' :: ';' :: post)) from by
        simp [hs]]
    exact getElem?_boundary _ _ '"' _ rfl _ (by simp; omega)
  have hdrop2 : s.drop (pre.length + 1 + k.length + 1) =
      ' ' :: '=' :: ' ' :: '"' :: (v ++ '"' :: ';' :: post) := by
    rw [show s = (pre ++ '"' :: k ++ ['"']) ++
      (' ' :: '=' :: ' ' :: '"' :: (v ++ '"' :: ';' :: post)) from by
        simp [hs]]
    exact drop_boundary _ _ _ (by simp; omega)
  have hsp1 : spaceRun s (pre.length + 1 + k.length + 1) = 1 := by
    rw [spaceRun, hdrop2]
    simp [List.takeWhile_cons, isPySpace]
  have h2 : s[pre.length + 1 + k.length + 1 + 1]? = some '=' := by
    rw [show s = (pre ++ '"' :: k ++ ['"', ' ']) ++
      ('=' :: ' ' :: '"' :: (v ++ '"' :: ';' :: post)) from by simp [hs]]
    exact getElem?_boundary _ _ '=' _ rfl _ (by simp; omega)
  have hdrop3 : s.drop (pre.length + 1 + k.length + 1 + 1 + 1) =
      ' ' :: '"' :: (v ++ '"' :: ';' :: post) := by
    rw [show s = (pre ++ '"' :: k ++ ['"', ' ', '=']) ++
      (' ' :: '"' :: (v ++ '"' :: ';' :: post)) from by simp [hs]]
    exact drop_boundary _ _ _ (by simp; omega)
  have hsp2 : spaceRun s (pre.length + 1 + k.length + 1 + 1 + 1) = 1 := by
    rw [spaceRun, hdrop3]
    simp [List.takeWhile_cons, isPySpace]
  have h3 : s[pre.length + 1 + k.length + 1 + 1 + 1 + 1]? = some '"' := by
    rw [show s = (pre ++ '"' :: k ++ ['"', ' ', '=', ' ']) ++
      ('"' :: (v ++ '"' :: ';' :: post)) from by simp [hs]]
    exact getElem?_boundary _ _ '"' _ rfl _ (by simp; omega)
  have hdropv : s.drop (pre.length + 1 + k.length + 1 + 1 + 1 + 1 + 1) =
      v ++ '"' :: ';' :: post := by
    rw [show s = (pre ++ '"' :: k ++ ['"', ' ', '=', ' ', '"']) ++
      (v ++ '"' :: ';' :: post) from by simp [hs]]
    exact drop_boundary _ _ _ (by simp; omega)
  have hvmem : ∀ c ∈ v, (c != '"') = true := by
    intro c hc
    simp only [bne_iff_ne, ne_eq]
    exact fun e => hv (e ▸ hc)
  have hrunv : nonQuoteRun s (pre.length + 1 + k.length + 1 + 1 + 1 + 1 + 1) =
      v.length := by
    rw [nonQuoteRun, hdropv, takeWhile_append_stop _ v '"' _ hvmem (by simp)]
  have hqv : s[pre.length + 1 + k.length + 1 + 1 + 1 + 1 + 1 + v.length]? =
      some '"' := by
    rw [show s = (pre ++ '"' :: k ++ ('"' :: ' ' :: '=' :: ' ' :: '"' :: v)) ++
      ('"' :: ';' :: post) from by simp [hs]]
    exact getElem?_boundary _ _ '"' _ rfl _ (by simp; omega)
  have hdropsemi : s.drop
      (pre.length + 1 + k.length + 1 + 1 + 1 + 1 + 1 + v.length + 1) =
      ';' :: post := by
    rw [show s = (pre ++ '"' :: k ++ ('"' :: ' ' :: '=' :: ' ' :: '"' :: v ++
      ['"'])) ++ (';' :: post) from by simp [hs]]
    exact drop_boundary _ _ _ (by simp; omega)
  have hsp0 : spaceRun s
      (pre.length + 1 + k.length + 1 + 1 + 1 + 1 + 1 + v.length + 1) = 0 := by
    rw [spaceRun, hdropsemi]
    simp [List.takeWhile_cons, isPySpace]
  have hsemi : s[pre.length + 1 + k.length + 1 + 1 + 1 + 1 + 1 + v.length + 1 +
      0]? = some ';' := by
    rw [show s = (pre ++ '"' :: k ++ ('"' :: ' ' :: '=' :: ' ' :: '"' :: v ++
      ['"'])) ++ (';' :: post) from by simp [hs]]
    exact getElem?_boundary _ _ ';' _ rfl _ (by simp; omega)
  have htt : tryTail s
      (pre.length + 1 + k.length + 1 + 1 + 1 + 1 + 1 + v.length + 1) =
      some (pre.length + 1 + k.length + 1 + 1 + 1 + 1 + 1 + v.length + 1 + 0 +
        1) := by
    rw [tryTail]
    simp only [hsp0, hsemi]
    simp
  have htv : tryValueAux s (s.length + 2)
      (pre.length + 1 + k.length + 1 + 1 + 1 + 1 + 1) =
      some (pre.length + 1 + k.length + 1 + 1 + 1 + 1 + 1 + v.length,
        pre.length + 1 + k.length + 1 + 1 + 1 + 1 + 1 + v.length + 1 + 0 +
          1) := by
    have hfe : s.length + 2 = (s.length + 1) + 1 := rfl
    rw [hfe]
    exact tryValueAux_first s (s.length + 1) _ _ _ (by rw [hrunv]) hqv htt
  have hval : (s.drop (pre.length + 1 + k.length + 1 + 1 + 1 + 1 + 1)).take
      (pre.length + 1 + k.length + 1 + 1 + 1 + 1 + 1 + v.length -
        (pre.length + 1 + k.length + 1 + 1 + 1 + 1 + 1)) = v := by
    rw [hdropv, show pre.length + 1 + k.length + 1 + 1 + 1 + 1 + 1 + v.length -
      (pre.length + 1 + k.length + 1 + 1 + 1 + 1 + 1) = v.length from by omega]
    exact List.take_left v _
  have hm : tryMatch s pre.length = some (⟨k, v⟩,
      pre.length + 1 + k.length + 1 + 1 + 1 + 1 + 1 + v.length + 1 + 0 + 1) :=
    tryMatch_exact s pre.length k v _ _ h0 hkey hklen h1 hsp1 h2 hsp2 h3 htv
      hval
  have hskip1 : ∀ i, i < pre.length → ∃ c, s[0 + i]? = some c ∧ c ≠ '"' := by
    intro i hi
    refine ⟨pre[i], ?_, fun e => hpre (e ▸ List.getElem_mem hi)⟩
    rw [Nat.zero_add, show s = pre ++ '"' :: (k ++ '"' :: ' ' :: '=' :: ' ' ::
      '"' :: (v ++ '"' :: ';' :: post)) from by simp [hs],
      List.getElem?_append_left hi, List.getElem?_eq_getElem hi]
  have hskip2 : ∀ i, i < post.length → ∃ c,
      s[pre.length + 1 + k.length + 1 + 1 + 1 + 1 + 1 + v.length + 1 + 0 + 1 +
        i]? = some c ∧ c ≠ '"' := by
    intro i hi
    refine ⟨post[i], ?_, fun e => hpost (e ▸ List.getElem_mem hi)⟩
    rw [show s = (pre ++ '"' :: k ++ ('"' :: ' ' :: '=' :: ' ' :: '"' :: v ++
      ['"', ';'])) ++ post from by simp [hs]]
    rw [List.getElem?_append_right (by simp; omega)]
    rw [show pre.length + 1 + k.length + 1 + 1 + 1 + 1 + 1 + v.length + 1 + 0 +
      1 + i - (pre ++ '"' :: k ++ ('"' :: ' ' :: '=' :: ' ' :: '"' :: v ++
        ['"', ';'])).length = i from by simp; omega]
    exact List.getElem?_eq_getElem hi
  have hend : s[pre.length + 1 + k.length + 1 + 1 + 1 + 1 + 1 + v.length + 1 +
      0 + 1 + post.length]? = none :=
    List.getElem?_eq_none (by omega)
  have hraw : rawMatches s = [⟨k, v⟩] := by
    rw [rawMatches]
    rw [show s.length + 1 = (s.length + 1 - pre.length) + pre.length from by
      omega]
    rw [scanAux_skip s pre.length (s.length + 1 - pre.length) 0 hskip1]
    rw [Nat.zero_add]
    rw [show s.length + 1 - pre.length =
      (s.length - pre.length) + 1 from by omega]
    rw [scanAux]
    simp only [h0, hm]
    rw [show s.length - pre.length =
      (k.length + v.length + 8) + post.length from by omega]
    rw [scanAux_skip s post.length (k.length + v.length + 8)
      (pre.length + 1 + k.length + 1 + 1 + 1 + 1 + 1 + v.length + 1 + 0 + 1)
      hskip2]
    rw [show k.length + v.length + 8 = (k.length + v.length + 7) + 1 from by
      omega]
    rw [scanAux_at_end s (k.length + v.length + 7) _ hend]
  rw [parseChars, hraw]
  rw [show buildDict ([(⟨k, v⟩ : RawMatch)].map (fun m =>
    (String.mk m.key, unescape_value (String.mk m.value)))) =
    [(String.mk k, unescape_value (String.mk v))] from rfl]
  rw [unescape_value_no_bs v hvb]

/-- Witness for C9: the pair sits inside a block comment. -/
theorem c9_witness :
    parseChars ("/* ".data ++ '"' :: "k".data ++ '"' :: ' ' :: '=' :: ' ' ::
      '"' :: "v".data ++ '"' :: ';' :: " */".data) = [("k", "v")] :=
  c9_comment_blind "/* ".data "k".data "v".data " */".data (by decide)
    (by decide) (by decide) (by decide) (by decide) (by decide)

/-! ## Exit code of `main` (claim C1)

Backups only insert files under `base_dir/.localization_backups`, so the
per-language check is unaffected by the backup phase; the exit code is then
a pure function of the resolved base file, its key set, the checked language
list and the per-language missing sets. -/

theorem lproj_ne (code : String) : code ++ ".lproj" ≠ ".localization_backups" := by
  intro h
  have hd : (code ++ ".lproj").data = ".localization_backups".data := by rw [h]
  rw [String.data_append] at hd
  have h1 : (code.data ++ ".lproj".data).getLast? = (".lproj".data).getLast? :=
    List.getLast?_append_of_ne_nil code.data (by decide)
  rw [hd] at h1
  exact absurd h1 (by decide)

theorem lang_path_dropLast (bd : List String) (code fn : String) :
    (bd ++ [code ++ ".lproj", fn]).dropLast = bd ++ [code ++ ".lproj"] := by
  rw [show bd ++ [code ++ ".lproj", fn] = (bd ++ [code ++ ".lproj"]) ++ [fn]
    from by simp]
  simp

theorem create_backup_preserved (fs : FS) (fp bdir : List String)
    (lc : Option String) (ts : String) (cf : Bool) (q : List String)
    (hq : q.dropLast ≠ bdir) :
    lookupPath (create_backup fs fp bdir lc ts cf).1.files q =
      lookupPath fs.files q := by
  cases hfp : lookupPath fs.files fp with
  | none => simp [create_backup, hfp]
  | some content =>
    by_cases hcf : cf = true
    · simp [create_backup, hfp, hcf]
    · have hcf' : cf = false := by simpa using hcf
      simp only [create_backup, hfp, hcf', Bool.false_eq_true, if_false,
        lookup_fileInsert]
      have hne : q ≠ bdir ++ [backup_filename fp lc ts] := by
        intro he
        apply hq
        rw [he]
        simp
      rw [if_neg hne]

theorem backupStep_preserved (bdir : List String) (ts : String)
    (cf : List String → Bool) (st : FS × List (List String))
    (fc : List String × String) (q : List String) (hq : q.dropLast ≠ bdir) :
    lookupPath (backupStep bdir ts cf st fc).1.files q =
      lookupPath st.1.files q := by
  rw [backupStep]
  by_cases hex : lookupPath st.1.files fc.1 ≠ none
  · rw [if_pos hex]
    have hp := create_backup_preserved st.1 fc.1 bdir (some fc.2) ts (cf fc.1)
      q hq
    cases hcb : create_backup st.1 fc.1 bdir (some fc.2) ts (cf fc.1) with
    | mk fs' rest =>
      obtain ⟨w, obp⟩ := rest
      rw [hcb] at hp
      cases obp with
      | none => exact hp
      | some bp => exact hp
  · rw [if_neg hex]

theorem backup_fold_preserved (bdir : List String) (ts : String)
    (cf : List String → Bool) :
    ∀ (lfs : List (List String × String)) (st : FS × List (List String))
      (q : List String), q.dropLast ≠ bdir →
      lookupPath ((lfs.foldl (backupStep bdir ts cf) st)).1.files q =
        lookupPath st.1.files q := by
  intro lfs
  induction lfs with
  | nil => intro st q _; rfl
  | cons fc tl ih =>
    intro st q hq
    rw [List.foldl_cons, ih _ q hq, backupStep_preserved _ _ _ _ _ _ hq]

theorem backupPhase_preserved (fs : FS) (bd bf : List String) (bl fn : String)
    (langs : List String) (ts : String) (cf : List String → Bool)
    (q : List String) (hq : q.dropLast ≠ bd ++ [".localization_backups"]) :
    lookupPath (backupPhase fs bd bf bl fn langs ts cf).files q =
      lookupPath fs.files q := by
  rw [backupPhase, backup_loc_files_eq]
  rw [backup_fold_preserved _ _ _ _ _ q hq]
  by_cases hb : lookupPath fs.files bf ≠ none
  · rw [if_pos hb]
    have hp := create_backup_preserved fs bf (bd ++ [".localization_backups"])
      (some bl) ts (cf bf) q hq
    cases hcb : create_backup fs bf (bd ++ [".localization_backups"]) (some bl)
        ts (cf bf) with
    | mk fs' rest =>
      obtain ⟨w, obp⟩ := rest
      rw [hcb] at hp
      cases obp with
      | none => exact hp
      | some bp => exact hp
  · rw [if_neg hb]

theorem checkLang_backup_eq (fs : FS) (bd bf : List String) (bl fn : String)
    (langs : List String) (ts : String) (cf : List String → Bool)
    (bk : Finset String) (code : String) :
    checkLang (backupPhase fs bd bf bl fn langs ts cf) bd fn bk code =
      checkLang fs bd fn bk code := by
  have hq : (bd ++ [code ++ ".lproj", fn]).dropLast ≠
      bd ++ [".localization_backups"] := by
    rw [lang_path_dropLast]
    intro he
    have h1 := List.append_cancel_left he
    have h2 : code ++ ".lproj" = ".localization_backups" := by simpa using h1
    exact lproj_ne code h2
  have hlook := backupPhase_preserved fs bd bf bl fn langs ts cf _ hq
  simp only [checkLang, find_language_file, hlook]
  by_cases hex : lookupPath fs.files (bd ++ [code ++ ".lproj", fn]) ≠ none
  · simp only [if_pos hex, parse_strings_file, hlook]
  · simp only [if_neg hex]

theorem foldl_union_congr (f g : String → Finset String) (h : ∀ c, f c = g c) :
    ∀ (l : List String) (acc : Finset String),
      l.foldl (fun a c => a ∪ f c) acc = l.foldl (fun a c => a ∪ g c) acc := by
  intro l
  induction l with
  | nil => intro acc; rfl
  | cons hd tl ih =>
    intro acc
    rw [List.foldl_cons, List.foldl_cons, h hd]
    exact ih _

theorem foldl_union_empty (f : String → Finset String) :
    ∀ (l : List String) (acc : Finset String),
      (l.foldl (fun a c => a ∪ f c) acc = ∅ ↔ acc = ∅ ∧ ∀ c ∈ l, f c = ∅) := by
  intro l
  induction l with
  | nil => intro acc; simp
  | cons hd tl ih =>
    intro acc
    rw [List.foldl_cons, ih, Finset.union_eq_empty]
    constructor
    · rintro ⟨⟨h1, h2⟩, h3⟩
      refine ⟨h1, fun c hc => ?_⟩
      rcases List.mem_cons.1 hc with h4 | h4
      · rw [h4]; exact h2
      · exact h3 c h4
    · rintro ⟨h1, h2⟩
      exact ⟨⟨h1, h2 hd (by simp)⟩, fun c hc => h2 c (List.mem_cons_of_mem _ hc)⟩

/-- Claim C1: `main`'s exit code is always 0 or 1; it is 1 on the usage
error of an unresolvable base file, and when the base file resolves it is 0
exactly when the base key set is non-empty, there is at least one language
to check, and no checked language is missing any base key (so it is 1
whenever some language misses a key, and 1 on the usage errors of an empty
base key set or no languages to check). -/
theorem c1_exit_code (fs : FS) (args : Args) (dd : List String) (ts : String)
    (cf : List String → Bool) :
    (checkMain fs args dd ts cf = 0 ∨ checkMain fs args dd ts cf = 1) ∧
    (resolveBase fs args dd = none → checkMain fs args dd ts cf = 1) ∧
    (∀ bd bl bf, resolveBase fs args dd = some (bd, bl, bf) →
      (checkMain fs args dd ts cf = 0 ↔
        stringsKeys (parse_strings_file fs bf) ≠ ∅ ∧
        checkedLanguages fs args bd bl ≠ [] ∧
        ∀ code ∈ checkedLanguages fs args bd bl,
          checkLang fs bd args.filename
            (stringsKeys (parse_strings_file fs bf)) code = ∅)) := by
  refine ⟨?_, ?_, ?_⟩
  · rw [checkMain]
    cases resolveBase fs args dd with
    | none => right; rfl
    | some t =>
      obtain ⟨bd, bl, bf⟩ := t
      simp only []
      by_cases hk : stringsKeys (parse_strings_file fs bf) = ∅
      · right; rw [if_pos hk]
      · rw [if_neg hk]
        by_cases hl : checkedLanguages fs args bd bl = []
        · right; rw [if_pos hl]
        · rw [if_neg hl]
          by_cases hm2 : all_missing
              (if args.backup then
                backupPhase fs bd bf bl args.filename
                  (checkedLanguages fs args bd bl) ts cf
              else fs) bd args.filename (stringsKeys (parse_strings_file fs bf))
              (checkedLanguages fs args bd bl) = ∅
          · left; rw [if_pos hm2]
          · right; rw [if_neg hm2]
  · intro h
    rw [checkMain, h]
  · intro bd bl bf hres
    rw [checkMain, hres]
    simp only []
    by_cases hk : stringsKeys (parse_strings_file fs bf) = ∅
    · rw [if_pos hk]
      constructor
      · intro h01; exact absurd h01 one_ne_zero
      · rintro ⟨h1, -, -⟩; exact absurd hk h1
    · rw [if_neg hk]
      by_cases hl : checkedLanguages fs args bd bl = []
      · rw [if_pos hl]
        constructor
        · intro h01; exact absurd h01 one_ne_zero
        · rintro ⟨-, h2, -⟩; exact absurd hl h2
      · rw [if_neg hl]
        have hall : all_missing
            (if args.backup then
              backupPhase fs bd bf bl args.filename
                (checkedLanguages fs args bd bl) ts cf
            else fs) bd args.filename (stringsKeys (parse_strings_file fs bf))
            (checkedLanguages fs args bd bl) =
            all_missing fs bd args.filename
              (stringsKeys (parse_strings_file fs bf))
              (checkedLanguages fs args bd bl) := by
          by_cases hb : args.backup
          · rw [if_pos hb, all_missing, all_missing]
            exact foldl_union_congr _ _
              (fun c => checkLang_backup_eq fs bd bf bl args.filename
                (checkedLanguages fs args bd bl) ts cf _ c) _ ∅
          · rw [if_neg hb]
        rw [hall]
        by_cases hm2 : all_missing fs bd args.filename
            (stringsKeys (parse_strings_file fs bf))
            (checkedLanguages fs args bd bl) = ∅
        · rw [if_pos hm2]
          constructor
          · intro _
            refine ⟨hk, hl, ?_⟩
            rw [all_missing] at hm2
            exact ((foldl_union_empty _ _ _).1 hm2).2
          · intro _; rfl
        · rw [if_neg hm2]
          constructor
          · intro h01; exact absurd h01 one_ne_zero
          · rintro ⟨-, -, h3⟩
            exfalso
            apply hm2
            rw [all_missing]
            exact (foldl_union_empty _ _ _).2 ⟨rfl, h3⟩

/-- Witness for C1 on a complete two-language tree: exit code 0. -/
theorem c1_witness :
    checkMain
      ⟨[(["R", "en.lproj", "Localizable.strings"], "\"a\" = \"1\";"),
        (["R", "es.lproj", "Localizable.strings"], "\"a\" = \"2\";")], []⟩
      ⟨none, some ["R"], "en", "Localizable.strings", some ["es"], false⟩
      ["D"] "20240101_000000" (fun _ => false) = 0 := by
  have h := ((c1_exit_code
    ⟨[(["R", "en.lproj", "Localizable.strings"], "\"a\" = \"1\";"),
      (["R", "es.lproj", "Localizable.strings"], "\"a\" = \"2\";")], []⟩
    ⟨none, some ["R"], "en", "Localizable.strings", some ["es"], false⟩
    ["D"] "20240101_000000" (fun _ => false)).2.2 ["R"] "en"
    ["R", "en.lproj", "Localizable.strings"] (by decide))
  exact h.mpr ⟨by decide, by decide, by decide⟩

end LocCheck
